import Mathlib

/-!
Shallow embedding of a simple sbrk-based memory allocator
(src/allocator.c): an intrusive singly linked block list with first-fit
reuse, growth of the arena when no free block qualifies, and retraction of
the arena when the physically last block is released.

The state keeps the headers living in the arena as an association list in
allocation order (which the code keeps equal to address order), the head
and tail pointers of the block list, the current program break, and the
user-visible bytes of memory.  Machine pointers become natural-number
addresses; `sbrk` failure becomes an explicit boolean answer from the
host; the grow request total_size = sizeof(struct header_t) + size is
computed in size_t and therefore wraps modulo 2 ^ 64, exactly as in C.
-/

namespace Allocator

/-- sizeof(struct header_t) on the modelled 64-bit host: 8 (size_t) +
4 (unsigned) + 4 (padding) + 8 (pointer).  Only its positivity is used by
the proofs. -/
def headerSize : Nat := 24

/-- struct header_t: byte count of the usable region that follows the
header, the free flag, and the link to the next header in allocation
order. -/
structure Header where
  size : Nat
  is_free : Bool
  next : Option Nat
deriving Repr, DecidableEq

/-- The headers living in the arena, keyed by their address, kept in
allocation order. -/
abbrev Mem := List (Nat × Header)

/-- Read the header stored at address a (dereference of a header pointer). -/
def findHeader : Mem → Nat → Option Header
  | [], _ => none
  | (b, h) :: rest, a => if b = a then some h else findHeader rest a

/-- Write the is_free field of the header at address a (header->is_free = f). -/
def setIsFree : Mem → Nat → Bool → Mem
  | [], _, _ => []
  | (b, h) :: rest, a, f =>
      if b = a then (b, { h with is_free := f }) :: rest
      else (b, h) :: setIsFree rest a f

/-- Write the next field of the header at address a (header->next = nx). -/
def setNext : Mem → Nat → Option Nat → Mem
  | [], _, _ => []
  | (b, h) :: rest, a, nx =>
      if b = a then (b, { h with next := nx }) :: rest
      else (b, h) :: setNext rest a nx

/-- Remove the header stored at address a (its storage left the arena). -/
def eraseHeader : Mem → Nat → Mem
  | [], _ => []
  | (b, h) :: rest, a => if b = a then rest else (b, h) :: eraseHeader rest a

/-- Key of the most recently appended header, if any. -/
def lastKey : Mem → Option Nat
  | [] => none
  | [(a, _)] => some a
  | _ :: e :: rest => lastKey (e :: rest)

/-- Global allocator state. -/
structure AllocState where
  mem : Mem
  head : Option Nat
  tail : Option Nat
  brk : Nat
  bytes : Nat → Nat

/-- State before the first allocation: no headers, null head and tail,
program break at the arena base (taken as address 0). -/
def initState : AllocState := ⟨[], none, none, 0, fun _ => 0⟩

/-- curr->is_free && curr->size >= required_size. -/
def qualifies (required : Nat) (h : Header) : Bool :=
  h.is_free && decide (required ≤ h.size)

/-- Loop of get_free_block: follow next pointers from curr and return the
first header that is free and large enough.  Fuel makes the traversal
total; under the list invariant the real traversal stays within fuel. -/
def gfbGo (m : Mem) (required : Nat) : Option Nat → Nat → Option Nat
  | none, _ => none
  | some _, 0 => none
  | some c, fuel + 1 =>
      match findHeader m c with
      | none => none
      | some h => if qualifies required h then some c else gfbGo m required h.next fuel

/-- get_free_block(required_size): first-fit scan from head. -/
def get_free_block (s : AllocState) (required : Nat) : Option Nat :=
  gfbGo s.mem required s.head (s.mem.length + 1)

/-- Number of values of size_t: size arithmetic wraps modulo 2 ^ 64. -/
def W : Nat := 2 ^ 64

/-- mmalloc(size).  growOk tells whether the host lets sbrk extend the
arena on this call (sbrk did not answer (void*)-1).  Returns the user
pointer and the new state.  The grow path computes
total_size = sizeof(struct header_t) + size in size_t, so the break
advances by (headerSize + size) mod 2 ^ 64, wrapping exactly as the C
source does. -/
def mmalloc (s : AllocState) (growOk : Bool) (size : Nat) : Option Nat × AllocState :=
  if size = 0 then (none, s)
  else
    match get_free_block s size with
    | some a => (some (a + headerSize), { s with mem := setIsFree s.mem a false })
    | none =>
        if growOk then
          let a := s.brk
          let mem1 := s.mem ++ [(a, ⟨size, false, none⟩)]
          let mem2 := match s.tail with
                      | some t => setNext mem1 t (some a)
                      | none => mem1
          (some (a + headerSize),
           { mem := mem2,
             head := if s.head = none then some a else s.head,
             tail := some a,
             brk := s.brk + (headerSize + size) % W,
             bytes := s.bytes })
        else (none, s)

/-- Loop in ffree that unlinks the trailing header: walk from curr; at the
node whose next equals tail, null its next and retarget tail (the walk then
stops, since it continues through the nulled field). -/
def removeTailGo : Mem → Option Nat → Option Nat → Nat → Mem × Option Nat
  | m, t, none, _ => (m, t)
  | m, t, some _, 0 => (m, t)
  | m, t, some c, fuel + 1 =>
      match findHeader m c with
      | none => (m, t)
      | some h =>
          if h.next = t then removeTailGo (setNext m c none) (some c) none fuel
          else removeTailGo m t h.next fuel

/-- ffree(block).  A null block is a no-op.  The header sits headerSize
bytes before the user pointer.  If the block ends exactly at the program
break it is unlinked and the arena retracted; otherwise it is only marked
free.  A pointer whose header is not in the arena is undefined behaviour in
C; the model makes it a no-op. -/
def ffree (s : AllocState) (block : Option Nat) : AllocState :=
  match block with
  | none => s
  | some p =>
      let a := p - headerSize
      match findHeader s.mem a with
      | none => s
      | some h =>
          if p + h.size = s.brk then
            if s.head = s.tail then
              { s with mem := eraseHeader s.mem a, head := none, tail := none,
                       brk := s.brk - (headerSize + h.size) }
            else
              let r := removeTailGo s.mem s.tail s.head (s.mem.length + 1)
              { s with mem := eraseHeader r.1 a, tail := r.2,
                       brk := s.brk - (headerSize + h.size) }
          else
            { s with mem := setIsFree s.mem a true }

/-- memset(p, 0, n) on the user-byte view of memory. -/
def memsetZero (bytes : Nat → Nat) (p n : Nat) : Nat → Nat :=
  fun a => if p ≤ a ∧ a < p + n then 0 else bytes a

/-- ccalloc(num, nsize): reject zero arguments, detect multiplication
overflow by the division round trip, then allocate and zero the region. -/
def ccalloc (s : AllocState) (growOk : Bool) (num nsize : Nat) : Option Nat × AllocState :=
  if num = 0 ∨ nsize = 0 then (none, s)
  else
    let size := num * nsize % W
    if nsize ≠ size / num then (none, s)
    else
      match mmalloc s growOk size with
      | (none, s1) => (none, s1)
      | (some p, s1) => (some p, { s1 with bytes := memsetZero s1.bytes p size })

/-- memcpy(dst, src, n) on the user-byte view of memory. -/
def memcpyBytes (bytes : Nat → Nat) (dst src n : Nat) : Nat → Nat :=
  fun a => if dst ≤ a ∧ a < dst + n then bytes (src + (a - dst)) else bytes a

/-- rrealloc(block, size): null block or zero size defer to mmalloc; a
block already large enough is returned as is; otherwise allocate, copy the
old usable bytes into the new region, release the old block.  A block
pointer whose header is not in the arena is undefined behaviour in C; the
model fails. -/
def rrealloc (s : AllocState) (growOk : Bool) (block : Option Nat) (size : Nat) :
    Option Nat × AllocState :=
  match block with
  | none => mmalloc s growOk size
  | some p =>
      if size = 0 then mmalloc s growOk size
      else
        match findHeader s.mem (p - headerSize) with
        | none => (none, s)
        | some h =>
            if h.size ≥ size then (some p, s)
            else
              match mmalloc s growOk size with
              | (none, s1) => (none, s1)
              | (some q, s1) =>
                  (some q, ffree { s1 with bytes := memcpyBytes s1.bytes q p h.size } (some p))

/-- segOk m b ptr brk: ptr points at the first header of m, the headers of
m tile the arena contiguously from base b up to the break brk, and each
header's next points at the following one (none at the end). -/
def segOk : Mem → Nat → Option Nat → Nat → Bool
  | [], b, ptr, brk => decide (ptr = none) && decide (b = brk)
  | (a, h) :: rest, b, ptr, brk =>
      decide (ptr = some a) && decide (a = b) &&
        segOk rest (a + headerSize + h.size) h.next brk

/-- Full allocator invariant: the block list tiles the arena from address 0
to the break, and tail is the most recently appended header. -/
def Inv (s : AllocState) : Bool :=
  segOk s.mem 0 s.head s.brk && decide (s.tail = lastKey s.mem)

/-- isChain m ptr as: following next from ptr visits exactly the addresses
in as and then stops at none. -/
def isChain (m : Mem) : Option Nat → List Nat → Bool
  | ptr, [] => decide (ptr = none)
  | ptr, a :: rest =>
      decide (ptr = some a) &&
        (match findHeader m a with
         | none => false
         | some h => isChain m h.next rest)

/-- States reachable from the pristine arena by the four public
operations, with an arbitrary host answer to every sbrk growth request and
arbitrary pointer arguments.  Size arguments are restricted to requests
whose total_size = headerSize + size does not wrap in size_t: at larger
sizes sbrk reserves fewer bytes than one header and the program goes on to
write the header and the user region into unreserved storage, so the
per-header record model no longer represents the memory (see the wrap
counterexamples below for what the program computes there). -/
inductive Reachable : AllocState → Prop
  | init : Reachable initState
  | step_malloc (s : AllocState) (g : Bool) (n : Nat) :
      headerSize + n < W → Reachable s → Reachable (mmalloc s g n).2
  | step_free (s : AllocState) (p : Option Nat) :
      Reachable s → Reachable (ffree s p)
  | step_calloc (s : AllocState) (g : Bool) (num nsize : Nat) :
      headerSize + num * nsize % W < W → Reachable s → Reachable (ccalloc s g num nsize).2
  | step_realloc (s : AllocState) (g : Bool) (p : Option Nat) (n : Nat) :
      headerSize + n < W → Reachable s → Reachable (rrealloc s g p n).2

/-! Basic facts about the list predicates. -/

theorem headerSize_pos : 0 < headerSize := by decide

theorem segOk_nil {b brk : Nat} {ptr : Option Nat} :
    segOk [] b ptr brk = true ↔ ptr = none ∧ b = brk := by
  simp [segOk]

theorem segOk_cons {a : Nat} {h : Header} {rest : Mem} {b brk : Nat} {ptr : Option Nat} :
    segOk ((a, h) :: rest) b ptr brk = true ↔
      ptr = some a ∧ a = b ∧ segOk rest (a + headerSize + h.size) h.next brk = true := by
  simp [segOk, and_assoc]

theorem segOk_le : ∀ {m : Mem} {b brk : Nat} {ptr : Option Nat},
    segOk m b ptr brk = true → b ≤ brk
  | [], b, brk, ptr, H => by
      rw [segOk_nil] at H; omega
  | (a, h) :: rest, b, brk, ptr, H => by
      rw [segOk_cons] at H
      obtain ⟨-, hab, hrest⟩ := H
      subst hab
      have h1 := segOk_le hrest
      omega

theorem segOk_bounds : ∀ {m : Mem} {b brk : Nat} {ptr : Option Nat},
    segOk m b ptr brk = true → ∀ e ∈ m, b ≤ e.1 ∧ e.1 + headerSize + e.2.size ≤ brk
  | [], _, _, _, _ => by simp
  | (a, h) :: rest, b, brk, ptr, H => by
      rw [segOk_cons] at H
      obtain ⟨-, hab, hrest⟩ := H
      subst hab
      intro e he
      rcases List.mem_cons.1 he with he1 | he2
      · subst he1
        exact ⟨Nat.le_refl a, segOk_le hrest⟩
      · obtain ⟨h2, h3⟩ := segOk_bounds hrest e he2
        omega

theorem segOk_pairwise : ∀ {m : Mem} {b brk : Nat} {ptr : Option Nat},
    segOk m b ptr brk = true →
    m.Pairwise (fun e f => e.1 + headerSize + e.2.size ≤ f.1)
  | [], _, _, _, _ => List.Pairwise.nil
  | (a, h) :: rest, b, brk, ptr, H => by
      rw [segOk_cons] at H
      obtain ⟨-, hab, hrest⟩ := H
      subst hab
      refine List.Pairwise.cons ?_ (segOk_pairwise hrest)
      intro e he
      exact (segOk_bounds hrest e he).1

theorem findHeader_mem : ∀ {m : Mem} {a : Nat} {h : Header},
    findHeader m a = some h → (a, h) ∈ m
  | [], _, _, H => by simp [findHeader] at H
  | (b, h0) :: rest, a, h, H => by
      by_cases hb : b = a
      · subst hb
        simp [findHeader] at H
        subst H
        exact List.mem_cons_self _ _
      · simp [findHeader, hb] at H
        exact List.mem_cons_of_mem _ (findHeader_mem H)

theorem findHeader_eq_of_pairwise : ∀ {m : Mem},
    m.Pairwise (fun e f => e.1 + headerSize + e.2.size ≤ f.1) →
    ∀ {a : Nat} {h : Header}, (a, h) ∈ m → findHeader m a = some h
  | [], _, _, _, hm => by simp at hm
  | (b, h0) :: rest, hp, a, h, hm => by
      rcases List.mem_cons.1 hm with he | hm2
      · cases he
        simp [findHeader]
      · have hlt := (List.pairwise_cons.1 hp).1 _ hm2
        have hba : b ≠ a := by
          intro hba
          subst hba
          have := headerSize_pos
          omega
        simp [findHeader, hba]
        exact findHeader_eq_of_pairwise (List.pairwise_cons.1 hp).2 hm2

theorem segOk_findHeader {m : Mem} {b brk : Nat} {ptr : Option Nat}
    (H : segOk m b ptr brk = true) {a : Nat} {h : Header}
    (hm : (a, h) ∈ m) : findHeader m a = some h :=
  findHeader_eq_of_pairwise (segOk_pairwise H) hm

/-! Facts about the field updates and lastKey. -/

theorem segOk_setIsFree : ∀ {m : Mem} {x : Nat} {f : Bool} {b brk : Nat} {ptr : Option Nat},
    segOk (setIsFree m x f) b ptr brk = segOk m b ptr brk
  | [], _, _, _, _, _ => rfl
  | (c, h0) :: rest, x, f, b, brk, ptr => by
      by_cases hc : c = x
      · simp [setIsFree, hc, segOk]
      · simp [setIsFree, hc, segOk, segOk_setIsFree]

theorem findHeader_setIsFree_self : ∀ {m : Mem} {x : Nat} {f : Bool},
    findHeader (setIsFree m x f) x =
      (findHeader m x).map fun h => { h with is_free := f }
  | [], _, _ => rfl
  | (c, h0) :: rest, x, f => by
      by_cases hc : c = x
      · simp [setIsFree, hc, findHeader]
      · simp [setIsFree, hc, findHeader, findHeader_setIsFree_self]

theorem findHeader_setIsFree_ne : ∀ {m : Mem} {x y : Nat} {f : Bool}, y ≠ x →
    findHeader (setIsFree m x f) y = findHeader m y
  | [], _, _, _, _ => rfl
  | (c, h0) :: rest, x, y, f, hxy => by
      by_cases hc : c = x
      · have hxy2 : x ≠ y := fun h2 => hxy h2.symm
        simp [setIsFree, hc, findHeader, hxy2]
      · have IH := findHeader_setIsFree_ne (m := rest) (f := f) hxy
        by_cases hcy : c = y
        · simp [setIsFree, hc, findHeader, hcy, hxy]
        · simp [setIsFree, hc, findHeader, hcy, IH]

theorem findHeader_setNext_self : ∀ {m : Mem} {x : Nat} {nx : Option Nat},
    findHeader (setNext m x nx) x =
      (findHeader m x).map fun h => { h with next := nx }
  | [], _, _ => rfl
  | (c, h0) :: rest, x, nx => by
      by_cases hc : c = x
      · simp [setNext, hc, findHeader]
      · simp [setNext, hc, findHeader, findHeader_setNext_self]

theorem findHeader_setNext_ne : ∀ {m : Mem} {x y : Nat} {nx : Option Nat}, y ≠ x →
    findHeader (setNext m x nx) y = findHeader m y
  | [], _, _, _, _ => rfl
  | (c, h0) :: rest, x, y, nx, hxy => by
      by_cases hc : c = x
      · have hxy2 : x ≠ y := fun h2 => hxy h2.symm
        simp [setNext, hc, findHeader, hxy2]
      · have IH := @findHeader_setNext_ne rest x y nx hxy
        by_cases hcy : c = y
        · simp [setNext, hc, findHeader, hcy, hxy]
        · simp [setNext, hc, findHeader, hcy, IH]

theorem setNext_append_of_found : ∀ {m1 : Mem} (m2 : Mem) {x : Nat} {nx : Option Nat}
    {h0 : Header}, findHeader m1 x = some h0 →
    setNext (m1 ++ m2) x nx = setNext m1 x nx ++ m2
  | [], _, _, _, _, H => by simp [findHeader] at H
  | (c, h) :: rest, m2, x, nx, h0, H => by
      by_cases hc : c = x
      · simp [setNext, hc]
      · simp [findHeader, hc] at H
        simp [setNext, hc, setNext_append_of_found m2 H]

theorem findHeader_append_left : ∀ {m1 : Mem} (m2 : Mem) {x : Nat} {h0 : Header},
    findHeader m1 x = some h0 → findHeader (m1 ++ m2) x = some h0
  | [], _, _, _, H => by simp [findHeader] at H
  | (c, h) :: rest, m2, x, h0, H => by
      by_cases hc : c = x
      · simp [findHeader, hc] at H ⊢; exact H
      · simp [findHeader, hc] at H ⊢
        exact findHeader_append_left m2 H

theorem findHeader_append_right : ∀ {m1 : Mem} (m2 : Mem) {x : Nat},
    (∀ e ∈ m1, e.1 ≠ x) → findHeader (m1 ++ m2) x = findHeader m2 x
  | [], _, _, _ => rfl
  | (c, h) :: rest, m2, x, H => by
      have hc : c ≠ x := H (c, h) (List.mem_cons_self _ _)
      simp [findHeader, hc]
      exact findHeader_append_right m2 fun e he => H e (List.mem_cons_of_mem _ he)

theorem eraseHeader_append : ∀ {m1 : Mem} (m2 : Mem) {x : Nat} {h0 : Header},
    (∀ e ∈ m1, e.1 ≠ x) → eraseHeader (m1 ++ (x, h0) :: m2) x = m1 ++ m2
  | [], _, _, _, _ => by simp [eraseHeader]
  | (c, h) :: rest, m2, x, h0, H => by
      have hc : c ≠ x := H (c, h) (List.mem_cons_self _ _)
      simp [eraseHeader, hc]
      exact eraseHeader_append m2 fun e he => H e (List.mem_cons_of_mem _ he)

theorem lastKey_cons (y : Nat × Header) {T : Mem} (hT : T ≠ []) :
    lastKey (y :: T) = lastKey T := by
  match T with
  | [] => exact absurd rfl hT
  | e :: rest => rfl

theorem lastKey_ne_none : ∀ (y : Nat × Header) (l : Mem), lastKey (y :: l) ≠ none
  | (a, h), [] => by simp [lastKey]
  | y, e :: rest => by
      rw [lastKey_cons y (by simp)]
      exact lastKey_ne_none e rest

theorem lastKey_eq_none {m : Mem} : lastKey m = none ↔ m = [] := by
  cases m with
  | nil => simp [lastKey]
  | cons y rest => simpa using lastKey_ne_none y rest

theorem lastKey_mem : ∀ {m : Mem} {t : Nat}, lastKey m = some t → ∃ h, (t, h) ∈ m
  | [], _, H => by simp [lastKey] at H
  | [(a, h)], t, H => by
      simp [lastKey] at H
      exact ⟨h, by simp [H]⟩
  | y :: e :: rest, t, H => by
      rw [lastKey_cons y (by simp)] at H
      obtain ⟨h, hm⟩ := lastKey_mem H
      exact ⟨h, List.mem_cons_of_mem _ hm⟩

theorem lastKey_concat : ∀ (m : Mem) (a : Nat) (h : Header),
    lastKey (m ++ [(a, h)]) = some a
  | [], _, _ => rfl
  | y :: rest, a, h => by
      rw [List.cons_append, lastKey_cons y (by simp), lastKey_concat rest]

theorem lastKey_setIsFree : ∀ (m : Mem) (x : Nat) (f : Bool),
    lastKey (setIsFree m x f) = lastKey m
  | [], _, _ => rfl
  | [(c, h)], x, f => by
      by_cases hc : c = x <;> simp [setIsFree, hc, lastKey]
  | (c, h) :: e :: rest, x, f => by
      have IH := lastKey_setIsFree (e :: rest) x f
      by_cases hc : c = x
      · rw [lastKey_cons (c, h) (T := e :: rest) (by simp),
            show setIsFree ((c, h) :: e :: rest) x f
              = (c, { h with is_free := f }) :: e :: rest from by simp [setIsFree, hc],
            lastKey_cons _ (T := e :: rest) (by simp)]
      · have hcons : ∃ z l, setIsFree (e :: rest) x f = z :: l := by
          cases e with
          | mk ea eh => by_cases he : ea = x <;> simp [setIsFree, he]
        obtain ⟨z, l, hz⟩ := hcons
        rw [lastKey_cons (c, h) (T := e :: rest) (by simp),
            show setIsFree ((c, h) :: e :: rest) x f
              = (c, h) :: setIsFree (e :: rest) x f from by simp [setIsFree, hc],
            hz, lastKey_cons (c, h) (T := z :: l) (by simp), ← hz, IH]

theorem lastKey_setNext : ∀ (m : Mem) (x : Nat) (nx : Option Nat),
    lastKey (setNext m x nx) = lastKey m
  | [], _, _ => rfl
  | [(c, h)], x, nx => by
      by_cases hc : c = x <;> simp [setNext, hc, lastKey]
  | (c, h) :: e :: rest, x, nx => by
      have IH := lastKey_setNext (e :: rest) x nx
      by_cases hc : c = x
      · rw [lastKey_cons (c, h) (T := e :: rest) (by simp),
            show setNext ((c, h) :: e :: rest) x nx
              = (c, { h with next := nx }) :: e :: rest from by simp [setNext, hc],
            lastKey_cons _ (T := e :: rest) (by simp)]
      · have hcons : ∃ z l, setNext (e :: rest) x nx = z :: l := by
          cases e with
          | mk ea eh => by_cases he : ea = x <;> simp [setNext, he]
        obtain ⟨z, l, hz⟩ := hcons
        rw [lastKey_cons (c, h) (T := e :: rest) (by simp),
            show setNext ((c, h) :: e :: rest) x nx
              = (c, h) :: setNext (e :: rest) x nx from by simp [setNext, hc],
            hz, lastKey_cons (c, h) (T := z :: l) (by simp), ← hz, IH]

theorem exists_two_suffix : ∀ {m : Mem}, 2 ≤ m.length →
    ∃ pre x y, m = pre ++ [x, y]
  | [], h => by simp at h
  | [x], h => by simp at h
  | [x, y], _ => ⟨[], x, y, rfl⟩
  | x :: y :: z :: rest, h => by
      obtain ⟨pre, u, v, he⟩ := exists_two_suffix (m := y :: z :: rest) (by simp)
      exact ⟨x :: pre, u, v, by rw [List.cons_append, ← he]⟩

/-! Structural lemmas about the traversals and the tiling invariant. -/

theorem lastKey_decomp : ∀ {m : Mem} {t : Nat}, lastKey m = some t →
    ∃ pre h, m = pre ++ [(t, h)]
  | [], _, H => by simp [lastKey] at H
  | [(a, h)], t, H => by
      simp [lastKey] at H
      exact ⟨[], h, by simp [H]⟩
  | x :: e :: rest, t, H => by
      rw [lastKey_cons x (by simp)] at H
      obtain ⟨pre, h, heq⟩ := lastKey_decomp H
      exact ⟨x :: pre, h, by rw [List.cons_append, ← heq]⟩

theorem setNext_mem_key : ∀ {m : Mem} {x : Nat} {nx : Option Nat} {e1 : Nat} {e2 : Header},
    (e1, e2) ∈ setNext m x nx → ∃ h0, (e1, h0) ∈ m
  | [], _, _, _, _, he => by simp [setNext] at he
  | (c, h) :: rest, x, nx, e1, e2, he => by
      by_cases hc : c = x
      · simp [setNext, hc] at he
        rcases he with ⟨rfl, -⟩ | he2
        · exact ⟨h, by simp [hc]⟩
        · exact ⟨e2, List.mem_cons_of_mem _ he2⟩
      · simp [setNext, hc] at he
        rcases he with ⟨rfl, -⟩ | he2
        · exact ⟨h, by simp⟩
        · obtain ⟨h0, hm⟩ := setNext_mem_key he2
          exact ⟨h0, List.mem_cons_of_mem _ hm⟩

theorem gfbGo_spec (full : Mem) (req : Nat) :
    ∀ (m : Mem) (b brk fuel : Nat) (ptr : Option Nat),
      segOk m b ptr brk = true →
      (∀ a h, (a, h) ∈ m → findHeader full a = some h) →
      m.length ≤ fuel →
      gfbGo full req ptr fuel = (m.find? fun e => qualifies req e.2).map Prod.fst
  | [], b, brk, fuel, ptr, H, _, _ => by
      rw [segOk_nil] at H
      obtain ⟨rfl, -⟩ := H
      cases fuel <;> simp [gfbGo]
  | (a, h) :: rest, b, brk, fuel, ptr, H, hf, hlen => by
      rw [segOk_cons] at H
      obtain ⟨rfl, rfl, hrest⟩ := H
      simp only [List.length_cons] at hlen
      cases fuel with
      | zero => omega
      | succ f =>
          have hfa : findHeader full a = some h := hf a h (List.mem_cons_self _ _)
          by_cases hq : qualifies req h = true
          · simp [gfbGo, hfa, hq, List.find?_cons_of_pos _ hq]
          · have hq2 : qualifies req h = false := by
              cases hqv : qualifies req h
              · rfl
              · exact absurd hqv hq
            rw [List.find?_cons_of_neg _ (by simp [hq2])]
            simp only [gfbGo, hfa, hq2]
            exact gfbGo_spec full req rest _ brk f h.next hrest
              (fun a2 h2 hm => hf a2 h2 (List.mem_cons_of_mem _ hm)) (by omega)

theorem segOk_append_grow : ∀ {m : Mem} {b brk n t : Nat} {ptr : Option Nat},
    segOk m b ptr brk = true → lastKey m = some t →
    segOk (setNext (m ++ [(brk, ⟨n, false, none⟩)]) t (some brk)) b ptr
      (brk + (headerSize + n)) = true
  | [], _, _, _, _, _, _, hl => by simp [lastKey] at hl
  | [(a, h)], b, brk, n, t, ptr, H, hl => by
      simp [lastKey] at hl
      subst hl
      rw [segOk_cons] at H
      obtain ⟨rfl, rfl, hrest⟩ := H
      rw [segOk_nil] at hrest
      obtain ⟨hnext, hend⟩ := hrest
      rw [show [(a, h)] ++ [(brk, (⟨n, false, none⟩ : Header))]
            = (a, h) :: [(brk, (⟨n, false, none⟩ : Header))] from rfl,
          show setNext ((a, h) :: [(brk, (⟨n, false, none⟩ : Header))]) a (some brk)
            = (a, { h with next := some brk }) :: [(brk, (⟨n, false, none⟩ : Header))]
            from by simp [setNext],
          segOk_cons]
      refine ⟨rfl, rfl, ?_⟩
      rw [segOk_cons]
      refine ⟨rfl, ?_, ?_⟩
      · show brk = a + headerSize + h.size
        omega
      · rw [segOk_nil]
        refine ⟨rfl, ?_⟩
        show brk + headerSize + n = brk + (headerSize + n)
        omega
  | (a, h) :: e :: rest, b, brk, n, t, ptr, H, hl => by
      rw [lastKey_cons _ (by simp)] at hl
      rw [segOk_cons] at H
      obtain ⟨rfl, rfl, hrest⟩ := H
      obtain ⟨ht, hmt⟩ := lastKey_mem hl
      have hat : a ≠ t := by
        have := (segOk_bounds hrest (t, ht) hmt).1
        have := headerSize_pos
        omega
      rw [show ((a, h) :: e :: rest) ++ [(brk, (⟨n, false, none⟩ : Header))]
            = (a, h) :: ((e :: rest) ++ [(brk, (⟨n, false, none⟩ : Header))]) from rfl,
          show setNext ((a, h) :: ((e :: rest) ++ [(brk, (⟨n, false, none⟩ : Header))])) t (some brk)
            = (a, h) :: setNext ((e :: rest) ++ [(brk, (⟨n, false, none⟩ : Header))]) t (some brk)
            from by simp [setNext, hat],
          segOk_cons]
      exact ⟨rfl, rfl, segOk_append_grow hrest hl⟩

theorem segOk_unappend : ∀ {pre : Mem} {lk ck b brk : Nat} {hl : Header} {ptr : Option Nat},
    segOk (pre ++ [(lk, hl)]) b ptr brk = true →
    lastKey pre = some ck →
    segOk (setNext pre ck none) b ptr lk = true
    ∧ brk = lk + (headerSize + hl.size)
    ∧ ∃ hck, findHeader pre ck = some hck ∧ hck.next = some lk
  | [], _, _, _, _, _, _, _, hck => by simp [lastKey] at hck
  | [(a, h)], lk, ck, b, brk, hl, ptr, H, hck => by
      simp [lastKey] at hck
      subst hck
      rw [List.cons_append, List.nil_append, segOk_cons] at H
      obtain ⟨rfl, rfl, hrest⟩ := H
      rw [segOk_cons] at hrest
      obtain ⟨hnx, hlk, hrest2⟩ := hrest
      rw [segOk_nil] at hrest2
      obtain ⟨hln, hend⟩ := hrest2
      refine ⟨?_, by omega, h, by simp [findHeader], hnx⟩
      rw [show setNext [(a, h)] a none = [(a, { h with next := none })] from by simp [setNext],
          segOk_cons]
      refine ⟨rfl, rfl, ?_⟩
      rw [segOk_nil]
      refine ⟨rfl, ?_⟩
      show a + headerSize + h.size = lk
      omega
  | (a, h) :: e :: rest, lk, ck, b, brk, hl, ptr, H, hck => by
      rw [lastKey_cons _ (by simp)] at hck
      rw [List.cons_append, segOk_cons] at H
      obtain ⟨rfl, rfl, hrest⟩ := H
      obtain ⟨hc, hmc⟩ := lastKey_mem hck
      have hac : a ≠ ck := by
        have := (segOk_bounds hrest (ck, hc) (List.mem_append_left [(lk, hl)] hmc)).1
        have := headerSize_pos
        omega
      obtain ⟨IH1, IH2, hckh, IH3, IH4⟩ := segOk_unappend hrest hck
      refine ⟨?_, IH2, hckh, ?_, IH4⟩
      · rw [show setNext ((a, h) :: e :: rest) ck none
              = (a, h) :: setNext (e :: rest) ck none from by simp [setNext, hac],
            segOk_cons]
        exact ⟨rfl, rfl, IH1⟩
      · rw [show findHeader ((a, h) :: e :: rest) ck = findHeader (e :: rest) ck from by
            simp [findHeader, hac]]
        exact IH3

theorem segOk_last_iff : ∀ {m : Mem} {b brk : Nat} {ptr : Option Nat},
    segOk m b ptr brk = true → ∀ {a : Nat} {h : Header}, (a, h) ∈ m →
    (a + headerSize + h.size = brk ↔ lastKey m = some a)
  | [], _, _, _, _, _, _, hm => by simp at hm
  | [(a0, h0)], b, brk, ptr, H, a, h, hm => by
      simp at hm
      obtain ⟨rfl, rfl⟩ := hm
      rw [segOk_cons] at H
      obtain ⟨-, rfl, hrest⟩ := H
      rw [segOk_nil] at hrest
      simp [lastKey, hrest.2]
  | (a0, h0) :: e :: rest, b, brk, ptr, H, a, h, hm => by
      rw [segOk_cons] at H
      obtain ⟨-, rfl, hrest⟩ := H
      rcases List.mem_cons.1 hm with he1 | he2
      · rw [Prod.mk.injEq] at he1
        obtain ⟨rfl, rfl⟩ := he1
        rw [lastKey_cons _ (by simp)]
        have hb1 := (segOk_bounds hrest e (List.mem_cons_self _ _)).1
        have hb2 := (segOk_bounds hrest e (List.mem_cons_self _ _)).2
        have := headerSize_pos
        constructor
        · intro hend
          exfalso
          omega
        · intro hlk
          exfalso
          obtain ⟨ht, hmt⟩ := lastKey_mem hlk
          have := (segOk_bounds hrest (a, ht) hmt).1
          omega
      · rw [lastKey_cons _ (by simp)]
        exact segOk_last_iff hrest he2

theorem removeTailGo_spec (full : Mem) :
    ∀ (pre : Mem) {ck tl b brk fuel : Nat} {hck hl : Header} {ptr : Option Nat},
      segOk (pre ++ [(ck, hck), (tl, hl)]) b ptr brk = true →
      (∀ a h, (a, h) ∈ pre ++ [(ck, hck), (tl, hl)] → findHeader full a = some h) →
      pre.length + 2 ≤ fuel →
      removeTailGo full (some tl) ptr fuel = (setNext full ck none, some ck)
  | [], ck, tl, b, brk, fuel, hck, hl, ptr, H, hf, hlen => by
      rw [List.nil_append, segOk_cons] at H
      obtain ⟨rfl, -, hrest⟩ := H
      rw [segOk_cons] at hrest
      obtain ⟨hnx, -, -⟩ := hrest
      cases fuel with
      | zero => omega
      | succ f =>
          have hfc : findHeader full ck = some hck := hf ck hck (by simp)
          simp [removeTailGo, hfc, hnx]
  | (a, h) :: pre2, ck, tl, b, brk, fuel, hck, hl, ptr, H, hf, hlen => by
      rw [List.cons_append, segOk_cons] at H
      obtain ⟨rfl, rfl, hrest⟩ := H
      obtain ⟨y, T, hyT⟩ : ∃ y T, pre2 ++ [(ck, hck), (tl, hl)] = y :: T := by
        cases pre2 <;> exact ⟨_, _, rfl⟩
      have hrest2 := hrest
      rw [hyT, segOk_cons] at hrest2
      obtain ⟨hnx, -, hT⟩ := hrest2
      have hmtl : (tl, hl) ∈ T := by
        cases pre2 with
        | nil =>
            rw [show ([] : Mem) ++ [(ck, hck), (tl, hl)] = (ck, hck) :: [(tl, hl)] from rfl] at hyT
            rw [List.cons.injEq] at hyT
            rw [← hyT.2]
            simp
        | cons z l =>
            rw [List.cons_append, List.cons.injEq] at hyT
            rw [← hyT.2]
            simp
      have hytl : y.1 ≠ tl := by
        have := (segOk_bounds hT (tl, hl) hmtl).1
        have := headerSize_pos
        omega
      cases fuel with
      | zero => simp at hlen
      | succ f =>
          have hfa : findHeader full a = some h := hf a h (by simp)
          have hne : ¬h.next = some tl := by
            rw [hnx]
            intro hcon
            rw [Option.some.injEq] at hcon
            exact hytl hcon
          simp only [removeTailGo, hfa, if_neg hne]
          exact removeTailGo_spec full pre2 hrest
            (fun a2 h2 hm => hf a2 h2 (List.mem_cons_of_mem _ hm))
            (by simp at hlen ⊢; omega)

/-! Small facts about lookups and lengths, and branch lemmas giving the
result of each operation on each control path of the C code. -/

theorem findHeader_eq_none : ∀ {m : Mem} {x : Nat}, (∀ e ∈ m, e.1 ≠ x) →
    findHeader m x = none
  | [], _, _ => rfl
  | (c, h) :: rest, x, H => by
      have hc : c ≠ x := H (c, h) (List.mem_cons_self _ _)
      simp [findHeader, hc]
      exact findHeader_eq_none fun e he => H e (List.mem_cons_of_mem _ he)

theorem setNext_length : ∀ (m : Mem) (x : Nat) (nx : Option Nat),
    (setNext m x nx).length = m.length
  | [], _, _ => rfl
  | (c, h) :: rest, x, nx => by
      by_cases hc : c = x <;> simp [setNext, hc, setNext_length rest]

theorem Inv_def {s : AllocState} :
    Inv s = true ↔ segOk s.mem 0 s.head s.brk = true ∧ s.tail = lastKey s.mem := by
  simp [Inv]

theorem Inv_bytes {s : AllocState} {f : Nat → Nat} :
    Inv { s with bytes := f } = Inv s := rfl

theorem mmalloc_zero {s : AllocState} {g : Bool} : mmalloc s g 0 = (none, s) := by
  simp [mmalloc]

theorem mmalloc_hit {s : AllocState} {g : Bool} {n a : Nat}
    (hn : n ≠ 0) (hg : get_free_block s n = some a) :
    mmalloc s g n = (some (a + headerSize), { s with mem := setIsFree s.mem a false }) := by
  simp [mmalloc, hn, hg]

theorem mmalloc_nogrow {s : AllocState} {n : Nat}
    (hn : n ≠ 0) (hg : get_free_block s n = none) :
    mmalloc s false n = (none, s) := by
  simp [mmalloc, hn, hg]

theorem mmalloc_grow_notail {s : AllocState} {n : Nat}
    (hn : n ≠ 0) (hg : get_free_block s n = none) (ht : s.tail = none) :
    mmalloc s true n =
      (some (s.brk + headerSize),
       { mem := s.mem ++ [(s.brk, ⟨n, false, none⟩)],
         head := if s.head = none then some s.brk else s.head,
         tail := some s.brk,
         brk := s.brk + (headerSize + n) % W,
         bytes := s.bytes }) := by
  simp [mmalloc, hn, hg, ht]

theorem mmalloc_grow_tail {s : AllocState} {n t : Nat}
    (hn : n ≠ 0) (hg : get_free_block s n = none) (ht : s.tail = some t) :
    mmalloc s true n =
      (some (s.brk + headerSize),
       { mem := setNext (s.mem ++ [(s.brk, ⟨n, false, none⟩)]) t (some s.brk),
         head := if s.head = none then some s.brk else s.head,
         tail := some s.brk,
         brk := s.brk + (headerSize + n) % W,
         bytes := s.bytes }) := by
  simp [mmalloc, hn, hg, ht]

theorem ffree_none (s : AllocState) : ffree s none = s := rfl

theorem ffree_invalid {s : AllocState} {p : Nat}
    (hf : findHeader s.mem (p - headerSize) = none) : ffree s (some p) = s := by
  simp [ffree, hf]

theorem ffree_mark {s : AllocState} {p : Nat} {h : Header}
    (hf : findHeader s.mem (p - headerSize) = some h) (hne : p + h.size ≠ s.brk) :
    ffree s (some p) = { s with mem := setIsFree s.mem (p - headerSize) true } := by
  simp [ffree, hf, hne]

theorem ffree_last_single {s : AllocState} {p : Nat} {h : Header}
    (hf : findHeader s.mem (p - headerSize) = some h) (heq : p + h.size = s.brk)
    (hht : s.head = s.tail) :
    ffree s (some p) = { s with mem := eraseHeader s.mem (p - headerSize),
                                head := none, tail := none,
                                brk := s.brk - (headerSize + h.size) } := by
  simp [ffree, hf, heq, hht]

theorem ffree_last_multi {s : AllocState} {p : Nat} {h : Header}
    (hf : findHeader s.mem (p - headerSize) = some h) (heq : p + h.size = s.brk)
    (hht : ¬s.head = s.tail) :
    ffree s (some p) =
      { s with mem := eraseHeader (removeTailGo s.mem s.tail s.head (s.mem.length + 1)).1
                        (p - headerSize),
               tail := (removeTailGo s.mem s.tail s.head (s.mem.length + 1)).2,
               brk := s.brk - (headerSize + h.size) } := by
  simp [ffree, hf, heq, hht]

/-- Behaviour of ffree on a block that ends exactly at the program break,
in an invariant state: that block is the trailing one; it is removed from
the list (head and tail cleared when it was the only block, otherwise the
predecessor's next nulled and tail retargeted to it) and the arena is
retracted past its header. -/
theorem ffree_last_desc {s : AllocState} {p : Nat} {h : Header}
    (HI : Inv s = true)
    (hf : findHeader s.mem (p - headerSize) = some h)
    (hlast : p + h.size = s.brk) :
    ∃ pre : Mem,
      s.mem = pre ++ [(p - headerSize, h)]
      ∧ p = (p - headerSize) + headerSize
      ∧ (ffree s (some p)).brk = s.brk - (headerSize + h.size)
      ∧ (ffree s (some p)).bytes = s.bytes
      ∧ Inv (ffree s (some p)) = true
      ∧ (ffree s (some p)).mem.length + 1 = s.mem.length
      ∧ findHeader (ffree s (some p)).mem (p - headerSize) = none
      ∧ ((pre = [] ∧ s.head = s.tail
            ∧ (ffree s (some p)).head = none ∧ (ffree s (some p)).tail = none)
         ∨ (pre ≠ [] ∧ ¬s.head = s.tail ∧ (ffree s (some p)).head = s.head
            ∧ ∃ ck hck, lastKey pre = some ck ∧ findHeader s.mem ck = some hck
                ∧ hck.next = some (p - headerSize)
                ∧ (ffree s (some p)).tail = some ck
                ∧ (ffree s (some p)).mem = setNext pre ck none
                ∧ findHeader (ffree s (some p)).mem ck
                    = some { hck with next := none })) := by
  obtain ⟨hseg, htail⟩ := Inv_def.1 HI
  have hm : (p - headerSize, h) ∈ s.mem := findHeader_mem hf
  have hb2 : (p - headerSize) + headerSize + h.size ≤ s.brk := (segOk_bounds hseg _ hm).2
  have hhs := headerSize_pos
  have hp : p = (p - headerSize) + headerSize := by omega
  have hend : (p - headerSize) + headerSize + h.size = s.brk := by omega
  have hlk : lastKey s.mem = some (p - headerSize) := (segOk_last_iff hseg hm).1 hend
  obtain ⟨pre, h2, hdec⟩ := lastKey_decomp hlk
  have hh2 : h = h2 := by
    have hfd : findHeader s.mem (p - headerSize) = some h2 :=
      segOk_findHeader hseg (by rw [hdec]; simp)
    rw [hf] at hfd
    exact Option.some_inj.1 hfd
  subst hh2
  have hpw := segOk_pairwise hseg
  rw [hdec] at hpw
  have hprelt : ∀ e1 e2, (e1, e2) ∈ pre → e1 + headerSize + e2.size ≤ p - headerSize := by
    intro e1 e2 he
    exact (List.pairwise_append.1 hpw).2.2 (e1, e2) he (p - headerSize, h) (by simp)
  cases pre with
  | nil =>
      rw [List.nil_append] at hdec
      have hsegd := hseg
      rw [hdec, segOk_cons] at hsegd
      obtain ⟨hhead, hzero, -⟩ := hsegd
      have hht : s.head = s.tail := by rw [hhead, htail, hlk]
      have hff := ffree_last_single hf hlast hht
      refine ⟨[], by simpa using hdec, hp, by rw [hff], by rw [hff], ?_, ?_, ?_,
        Or.inl ⟨rfl, hht, by rw [hff], by rw [hff]⟩⟩
      · rw [hff, Inv_def]
        constructor
        · show segOk (eraseHeader s.mem (p - headerSize)) 0 none (s.brk - (headerSize + h.size))
            = true
          rw [hdec, show eraseHeader [(p - headerSize, h)] (p - headerSize) = [] from by
              simp [eraseHeader], segOk_nil]
          exact ⟨rfl, by omega⟩
        · show (none : Option Nat) = lastKey (eraseHeader s.mem (p - headerSize))
          rw [hdec, show eraseHeader [(p - headerSize, h)] (p - headerSize) = [] from by
              simp [eraseHeader]]
          rfl
      · rw [hff]
        show (eraseHeader s.mem (p - headerSize)).length + 1 = s.mem.length
        rw [hdec, show eraseHeader [(p - headerSize, h)] (p - headerSize) = [] from by
            simp [eraseHeader]]
        simp
      · rw [hff]
        show findHeader (eraseHeader s.mem (p - headerSize)) (p - headerSize) = none
        rw [hdec, show eraseHeader [(p - headerSize, h)] (p - headerSize) = [] from by
            simp [eraseHeader]]
        rfl
  | cons y pre1 =>
      obtain ⟨y1, y2⟩ := y
      have hsegd := hseg
      rw [hdec, List.cons_append, segOk_cons] at hsegd
      obtain ⟨hhead, hy0, -⟩ := hsegd
      have hy1lt : y1 + headerSize + y2.size ≤ p - headerSize :=
        hprelt y1 y2 (List.mem_cons_self _ _)
      have hht : ¬s.head = s.tail := by
        rw [hhead, htail, hlk]
        intro hcon
        rw [Option.some_inj] at hcon
        omega
      have hff := ffree_last_multi hf hlast hht
      obtain ⟨ck, hckk⟩ : ∃ ck, lastKey ((y1, y2) :: pre1) = some ck := by
        cases hlkp : lastKey ((y1, y2) :: pre1) with
        | none => exact absurd (lastKey_eq_none.1 hlkp) (by simp)
        | some c => exact ⟨c, rfl⟩
      obtain ⟨pre0, hck0, hdec2⟩ := lastKey_decomp hckk
      have hassoc : s.mem = pre0 ++ [(ck, hck0), (p - headerSize, h)] := by
        rw [hdec, hdec2]
        simp
      have hseg2 : segOk (pre0 ++ [(ck, hck0), (p - headerSize, h)]) 0 s.head s.brk = true := by
        rw [← hassoc]
        exact hseg
      have hlook : ∀ a2 h2, (a2, h2) ∈ pre0 ++ [(ck, hck0), (p - headerSize, h)] →
          findHeader s.mem a2 = some h2 := by
        intro a2 h2 hm2
        exact segOk_findHeader hseg (by rw [hassoc]; exact hm2)
      have hlen2 : s.mem.length = pre0.length + 2 := by
        rw [hassoc]
        simp
      have htl : s.tail = some (p - headerSize) := by rw [htail, hlk]
      have hrm : removeTailGo s.mem s.tail s.head (s.mem.length + 1)
          = (setNext s.mem ck none, some ck) := by
        rw [htl]
        exact removeTailGo_spec s.mem pre0 hseg2 hlook (by omega)
      have hpwpre : ((y1, y2) :: pre1).Pairwise
          (fun e f => e.1 + headerSize + e.2.size ≤ f.1) :=
        (List.pairwise_append.1 hpw).1
      have hfck : findHeader ((y1, y2) :: pre1) ck = some hck0 :=
        findHeader_eq_of_pairwise hpwpre (by rw [hdec2]; simp)
      have hsn : setNext s.mem ck none
          = setNext ((y1, y2) :: pre1) ck none ++ [(p - headerSize, h)] := by
        rw [hdec]
        exact setNext_append_of_found _ hfck
      have hkeysn : ∀ e ∈ setNext ((y1, y2) :: pre1) ck none, e.1 ≠ p - headerSize := by
        intro e he
        obtain ⟨e1, e2⟩ := e
        obtain ⟨h0, hm0⟩ := setNext_mem_key he
        have := hprelt e1 h0 hm0
        dsimp only
        omega
      have hmem2 : eraseHeader (setNext s.mem ck none) (p - headerSize)
          = setNext ((y1, y2) :: pre1) ck none := by
        rw [hsn]
        have he := @eraseHeader_append (setNext ((y1, y2) :: pre1) ck none) []
          (p - headerSize) h hkeysn
        simpa using he
      obtain ⟨hseg', hbrkeq, hckh, hfckpre, hcknext⟩ :=
        segOk_unappend (hdec ▸ hseg) hckk
      have hckeq : hck0 = hckh := by
        rw [hfckpre] at hfck
        exact (Option.some_inj.1 hfck).symm
      subst hckeq
      have hbrk' : s.brk - (headerSize + h.size) = p - headerSize := by omega
      refine ⟨(y1, y2) :: pre1, hdec, hp, by rw [hff], by rw [hff], ?_, ?_, ?_,
        Or.inr ⟨by simp, hht, by rw [hff], ck, hck0, hckk, ?_, hcknext, ?_, ?_, ?_⟩⟩
      · rw [hff, Inv_def]
        constructor
        · show segOk (eraseHeader (removeTailGo s.mem s.tail s.head (s.mem.length + 1)).1
              (p - headerSize)) 0 s.head (s.brk - (headerSize + h.size)) = true
          rw [hrm]
          show segOk (eraseHeader (setNext s.mem ck none) (p - headerSize)) 0 s.head
            (s.brk - (headerSize + h.size)) = true
          rw [hmem2, hbrk']
          exact hseg'
        · show (removeTailGo s.mem s.tail s.head (s.mem.length + 1)).2
            = lastKey (eraseHeader (removeTailGo s.mem s.tail s.head (s.mem.length + 1)).1
                (p - headerSize))
          rw [hrm]
          show some ck = lastKey (eraseHeader (setNext s.mem ck none) (p - headerSize))
          rw [hmem2, lastKey_setNext, hckk]
      · rw [hff]
        show (eraseHeader (removeTailGo s.mem s.tail s.head (s.mem.length + 1)).1
            (p - headerSize)).length + 1 = s.mem.length
        rw [hrm]
        show (eraseHeader (setNext s.mem ck none) (p - headerSize)).length + 1 = s.mem.length
        rw [hmem2, setNext_length, hdec]
        simp
      · rw [hff]
        show findHeader (eraseHeader (removeTailGo s.mem s.tail s.head (s.mem.length + 1)).1
            (p - headerSize)) (p - headerSize) = none
        rw [hrm]
        show findHeader (eraseHeader (setNext s.mem ck none) (p - headerSize))
          (p - headerSize) = none
        rw [hmem2]
        exact findHeader_eq_none hkeysn
      · rw [hdec]
        exact findHeader_append_left _ hfckpre
      · rw [hff]
        show (removeTailGo s.mem s.tail s.head (s.mem.length + 1)).2 = some ck
        rw [hrm]
      · rw [hff]
        show eraseHeader (removeTailGo s.mem s.tail s.head (s.mem.length + 1)).1
          (p - headerSize) = setNext ((y1, y2) :: pre1) ck none
        rw [hrm]
        exact hmem2
      · rw [hff]
        show findHeader (eraseHeader (removeTailGo s.mem s.tail s.head (s.mem.length + 1)).1
            (p - headerSize)) ck = some { hck0 with next := none }
        rw [hrm]
        show findHeader (eraseHeader (setNext s.mem ck none) (p - headerSize)) ck
          = some { hck0 with next := none }
        rw [hmem2, findHeader_setNext_self, hfck]
        rfl

/-! Preservation of the invariant by the four public operations. -/

theorem Inv_mmalloc {s : AllocState} (g : Bool) (n : Nat) (hw : headerSize + n < W)
    (HI : Inv s = true) : Inv (mmalloc s g n).2 = true := by
  by_cases hn : n = 0
  · subst hn
    rw [mmalloc_zero]
    exact HI
  obtain ⟨hseg, htail⟩ := Inv_def.1 HI
  cases hgf : get_free_block s n with
  | some a =>
      rw [mmalloc_hit hn hgf, Inv_def]
      constructor
      · show segOk (setIsFree s.mem a false) 0 s.head s.brk = true
        rw [segOk_setIsFree]
        exact hseg
      · show s.tail = lastKey (setIsFree s.mem a false)
        rw [lastKey_setIsFree]
        exact htail
  | none =>
      cases g with
      | false =>
          rw [mmalloc_nogrow hn hgf]
          exact HI
      | true =>
          cases ht : s.tail with
          | none =>
              have hmem : s.mem = [] := by
                rw [ht] at htail
                exact lastKey_eq_none.1 htail.symm
              rw [hmem, segOk_nil] at hseg
              obtain ⟨hhd, hbrk0⟩ := hseg
              rw [mmalloc_grow_notail hn hgf ht, Inv_def]
              constructor
              · show segOk (s.mem ++ [(s.brk, ⟨n, false, none⟩)]) 0
                    (if s.head = none then some s.brk else s.head)
                    (s.brk + (headerSize + n) % W) = true
                rw [Nat.mod_eq_of_lt hw]
                rw [hmem, hhd, List.nil_append, if_pos rfl, segOk_cons]
                refine ⟨rfl, by omega, ?_⟩
                rw [segOk_nil]
                refine ⟨rfl, ?_⟩
                show s.brk + headerSize + n = s.brk + (headerSize + n)
                omega
              · show (some s.brk : Option Nat)
                    = lastKey (s.mem ++ [(s.brk, ⟨n, false, none⟩)])
                rw [lastKey_concat]
          | some t =>
              have hlkt : lastKey s.mem = some t := by rw [← htail, ht]
              obtain ⟨ht2, hmt⟩ := lastKey_mem hlkt
              have hfind : findHeader s.mem t = some ht2 := segOk_findHeader hseg hmt
              obtain ⟨pre, hX, hdecm⟩ := lastKey_decomp hlkt
              have hmemne : s.mem ≠ [] := by rw [hdecm]; simp
              obtain ⟨k0, h0, rest, hcons⟩ : ∃ k0 h0 rest, s.mem = (k0, h0) :: rest := by
                cases hsm : s.mem with
                | nil => exact absurd hsm hmemne
                | cons z l => exact ⟨z.1, z.2, l, by rw [Prod.mk.eta]⟩
              have hhd : s.head = some k0 := by
                have hs2 := hseg
                rw [hcons, segOk_cons] at hs2
                exact hs2.1
              rw [mmalloc_grow_tail hn hgf ht, Inv_def]
              constructor
              · show segOk (setNext (s.mem ++ [(s.brk, ⟨n, false, none⟩)]) t (some s.brk)) 0
                    (if s.head = none then some s.brk else s.head)
                    (s.brk + (headerSize + n) % W) = true
                rw [Nat.mod_eq_of_lt hw]
                rw [hhd]
                rw [show (if (some k0 : Option Nat) = none then some s.brk else some k0)
                      = some k0 from by simp]
                rw [← hhd]
                exact segOk_append_grow hseg hlkt
              · show (some s.brk : Option Nat)
                    = lastKey (setNext (s.mem ++ [(s.brk, ⟨n, false, none⟩)]) t (some s.brk))
                rw [setNext_append_of_found _ hfind, lastKey_concat]

theorem Inv_ffree {s : AllocState} (p : Option Nat) (HI : Inv s = true) :
    Inv (ffree s p) = true := by
  cases p with
  | none => rw [ffree_none]; exact HI
  | some q =>
      cases hf : findHeader s.mem (q - headerSize) with
      | none => rw [ffree_invalid hf]; exact HI
      | some h =>
          by_cases hl : q + h.size = s.brk
          · obtain ⟨pre, -, -, -, -, hInv, -, -, -⟩ := ffree_last_desc HI hf hl
            exact hInv
          · rw [ffree_mark hf hl, Inv_def]
            obtain ⟨hseg, htail⟩ := Inv_def.1 HI
            constructor
            · show segOk (setIsFree s.mem (q - headerSize) true) 0 s.head s.brk = true
              rw [segOk_setIsFree]
              exact hseg
            · show s.tail = lastKey (setIsFree s.mem (q - headerSize) true)
              rw [lastKey_setIsFree]
              exact htail

theorem Inv_ccalloc {s : AllocState} (g : Bool) (num nsize : Nat)
    (hw : headerSize + num * nsize % W < W) (HI : Inv s = true) :
    Inv (ccalloc s g num nsize).2 = true := by
  by_cases h0 : num = 0 ∨ nsize = 0
  · simp only [ccalloc, if_pos h0]
    exact HI
  · by_cases hov : nsize ≠ num * nsize % W / num
    · simp only [ccalloc, if_neg h0, if_pos hov]
      exact HI
    · rcases hmm : mmalloc s g (num * nsize % W) with ⟨r, s1⟩
      have hs1 : Inv s1 = true := by
        have h2 := Inv_mmalloc g (num * nsize % W) hw HI
        rw [hmm] at h2
        exact h2
      cases r with
      | none =>
          simp only [ccalloc, if_neg h0, if_neg hov, hmm]
          exact hs1
      | some q =>
          simp only [ccalloc, if_neg h0, if_neg hov, hmm]
          rw [Inv_bytes]
          exact hs1

theorem Inv_rrealloc {s : AllocState} (g : Bool) (p : Option Nat) (n : Nat)
    (hw : headerSize + n < W) (HI : Inv s = true) :
    Inv (rrealloc s g p n).2 = true := by
  cases p with
  | none =>
      show Inv (mmalloc s g n).2 = true
      exact Inv_mmalloc g n hw HI
  | some q =>
      by_cases hn : n = 0
      · subst hn
        simp only [rrealloc, if_pos rfl]
        exact Inv_mmalloc g 0 (by decide) HI
      cases hf : findHeader s.mem (q - headerSize) with
      | none =>
          simp only [rrealloc, if_neg hn, hf]
          exact HI
      | some h =>
          by_cases hsz : h.size ≥ n
          · simp only [rrealloc, if_neg hn, hf, if_pos hsz]
            exact HI
          · rcases hmm : mmalloc s g n with ⟨r, s1⟩
            have hs1 : Inv s1 = true := by
              have h2 := Inv_mmalloc g n hw HI
              rw [hmm] at h2
              exact h2
            cases r with
            | none =>
                simp only [rrealloc, if_neg hn, hf, if_neg hsz, hmm]
                exact hs1
            | some q2 =>
                simp only [rrealloc, if_neg hn, hf, if_neg hsz, hmm]
                exact Inv_ffree _ (by rw [Inv_bytes]; exact hs1)

/-- Every reachable state satisfies the tiling invariant. -/
theorem Reachable_Inv : ∀ {s : AllocState}, Reachable s → Inv s = true := by
  intro s hr
  induction hr with
  | init => rfl
  | step_malloc s g n hw _ ih => exact Inv_mmalloc g n hw ih
  | step_free s p _ ih => exact Inv_ffree p ih
  | step_calloc s g num nsize hw _ ih => exact Inv_ccalloc g num nsize hw ih
  | step_realloc s g p n hw _ ih => exact Inv_rrealloc g p n hw ih

/-! Helper lemmas shared by the claim theorems. -/

theorem gfbGo_sound : ∀ (fuel : Nat) {m : Mem} {req : Nat} {ptr : Option Nat} {a : Nat},
    gfbGo m req ptr fuel = some a →
    ∃ h0, findHeader m a = some h0 ∧ h0.is_free = true ∧ req ≤ h0.size
  | 0, m, req, ptr, a, H => by cases ptr <;> simp [gfbGo] at H
  | fuel + 1, m, req, ptr, a, H => by
      cases ptr with
      | none => simp [gfbGo] at H
      | some c =>
          simp only [gfbGo] at H
          cases hfc : findHeader m c with
          | none => rw [hfc] at H; simp at H
          | some h =>
              rw [hfc] at H
              have H2 : (if qualifies req h = true then some c
                  else gfbGo m req h.next fuel) = some a := H
              by_cases hq : qualifies req h = true
              · rw [if_pos hq] at H2
                rw [Option.some_inj] at H2
                subst H2
                simp [qualifies] at hq
                exact ⟨h, hfc, hq.1, hq.2⟩
              · rw [if_neg hq] at H2
                exact gfbGo_sound fuel H2

theorem get_free_block_sound {s : AllocState} {req a : Nat}
    (H : get_free_block s req = some a) :
    ∃ h0, findHeader s.mem a = some h0 ∧ h0.is_free = true ∧ req ≤ h0.size :=
  gfbGo_sound _ H

theorem mmalloc_bytes {s : AllocState} {g : Bool} {n : Nat} :
    (mmalloc s g n).2.bytes = s.bytes := by
  by_cases hn : n = 0
  · subst hn; rw [mmalloc_zero]
  cases hgf : get_free_block s n with
  | some a => rw [mmalloc_hit hn hgf]
  | none =>
      cases g with
      | false => rw [mmalloc_nogrow hn hgf]
      | true =>
          cases ht : s.tail with
          | none => rw [mmalloc_grow_notail hn hgf ht]
          | some t => rw [mmalloc_grow_tail hn hgf ht]

theorem ffree_bytes {s : AllocState} {p : Option Nat} : (ffree s p).bytes = s.bytes := by
  cases p with
  | none => rw [ffree_none]
  | some q =>
      cases hf : findHeader s.mem (q - headerSize) with
      | none => rw [ffree_invalid hf]
      | some h =>
          by_cases hl : q + h.size = s.brk
          · by_cases hht : s.head = s.tail
            · rw [ffree_last_single hf hl hht]
            · rw [ffree_last_multi hf hl hht]
          · rw [ffree_mark hf hl]

theorem mmalloc_fail_state {s : AllocState} {g : Bool} {n : Nat}
    (hfail : (mmalloc s g n).1 = none) : mmalloc s g n = (none, s) := by
  by_cases hn : n = 0
  · subst hn; exact mmalloc_zero
  cases hgf : get_free_block s n with
  | some a => rw [mmalloc_hit hn hgf] at hfail; simp at hfail
  | none =>
      cases g with
      | false => exact mmalloc_nogrow hn hgf
      | true =>
          cases ht : s.tail with
          | none => rw [mmalloc_grow_notail hn hgf ht] at hfail; simp at hfail
          | some t => rw [mmalloc_grow_tail hn hgf ht] at hfail; simp at hfail

theorem segOk_disjoint : ∀ {m : Mem} {b brk : Nat} {ptr : Option Nat},
    segOk m b ptr brk = true →
    ∀ {a1 a2 : Nat} {h1 h2 : Header}, (a1, h1) ∈ m → (a2, h2) ∈ m → a1 ≠ a2 →
    a1 + headerSize + h1.size ≤ a2 ∨ a2 + headerSize + h2.size ≤ a1
  | [], _, _, _, _, _, _, _, _, hm1, _, _ => by simp at hm1
  | (c, hc) :: rest, b, brk, ptr, H, a1, a2, h1, h2, hm1, hm2, hne => by
      rw [segOk_cons] at H
      obtain ⟨-, -, hrest⟩ := H
      rcases List.mem_cons.1 hm1 with he1 | he1 <;>
        rcases List.mem_cons.1 hm2 with he2 | he2
      · rw [Prod.mk.injEq] at he1 he2
        exact absurd (he1.1.trans he2.1.symm) hne
      · rw [Prod.mk.injEq] at he1
        obtain ⟨rfl, rfl⟩ := he1
        have := (segOk_bounds hrest _ he2).1
        left
        exact this
      · rw [Prod.mk.injEq] at he2
        obtain ⟨rfl, rfl⟩ := he2
        have := (segOk_bounds hrest _ he1).1
        right
        exact this
      · exact segOk_disjoint hrest he1 he2 hne

theorem segOk_append_last_next : ∀ {pre : Mem} {x b brk : Nat} {hX : Header}
    {ptr : Option Nat}, segOk (pre ++ [(x, hX)]) b ptr brk = true →
    hX.next = none ∧ x + headerSize + hX.size = brk
  | [], x, b, brk, hX, ptr, H => by
      rw [List.nil_append, segOk_cons] at H
      obtain ⟨-, -, hrest⟩ := H
      rw [segOk_nil] at hrest
      exact hrest
  | y :: pre1, x, b, brk, hX, ptr, H => by
      obtain ⟨y1, y2⟩ := y
      rw [List.cons_append, segOk_cons] at H
      exact segOk_append_last_next H.2.2

theorem isChain_of_suffix : ∀ {rest : Mem} {full : Mem} {b brk : Nat} {ptr : Option Nat},
    segOk rest b ptr brk = true →
    (∀ a h, (a, h) ∈ rest → findHeader full a = some h) →
    isChain full ptr (rest.map Prod.fst) = true
  | [], full, b, brk, ptr, H, _ => by
      rw [segOk_nil] at H
      simp [isChain, H.1]
  | (a, h) :: rest, full, b, brk, ptr, H, hf => by
      rw [segOk_cons] at H
      obtain ⟨rfl, -, hrest⟩ := H
      have hfa : findHeader full a = some h := hf a h (List.mem_cons_self _ _)
      have IH := isChain_of_suffix hrest fun a2 h2 hm => hf a2 h2 (List.mem_cons_of_mem _ hm)
      simp [isChain, hfa, IH]

theorem lastKey_eq_getLast : ∀ (m : Mem), lastKey m = (m.map Prod.fst).getLast?
  | [] => rfl
  | [(a, h)] => rfl
  | x :: e :: rest => by
      rw [lastKey_cons x (by simp), lastKey_eq_getLast (e :: rest),
          show (x :: e :: rest).map Prod.fst = x.1 :: e.1 :: rest.map Prod.fst from rfl,
          List.getLast?_cons_cons,
          show (e :: rest).map Prod.fst = e.1 :: rest.map Prod.fst from rfl]

theorem keys_nodup : ∀ {m : Mem} {b brk : Nat} {ptr : Option Nat},
    segOk m b ptr brk = true → (m.map Prod.fst).Nodup
  | [], _, _, _, _ => List.nodup_nil
  | (a, h) :: rest, b, brk, ptr, H => by
      rw [segOk_cons] at H
      obtain ⟨-, -, hrest⟩ := H
      rw [List.map_cons, List.nodup_cons]
      constructor
      · intro hmem
        obtain ⟨e, he, heq⟩ := List.mem_map.1 hmem
        obtain ⟨e1, e2⟩ := e
        have hb := (segOk_bounds hrest _ he).1
        have hhs := headerSize_pos
        dsimp only at heq hb
        omega
      · exact keys_nodup hrest

theorem mmalloc_grow_desc {s : AllocState} {n : Nat} (HI : Inv s = true) (hn : n ≠ 0)
    (hgf : get_free_block s n = none) :
    (mmalloc s true n).1 = some (s.brk + headerSize)
    ∧ (mmalloc s true n).2.brk = s.brk + (headerSize + n) % W
    ∧ findHeader (mmalloc s true n).2.mem s.brk = some ⟨n, false, none⟩
    ∧ (mmalloc s true n).2.head = (if s.head = none then some s.brk else s.head)
    ∧ (mmalloc s true n).2.tail = some s.brk
    ∧ (∀ t ht, s.tail = some t → findHeader s.mem t = some ht →
        findHeader (mmalloc s true n).2.mem t = some { ht with next := some s.brk }) := by
  obtain ⟨hseg, htail⟩ := Inv_def.1 HI
  cases ht : s.tail with
  | none =>
      have hmem : s.mem = [] := by
        rw [ht] at htail
        exact lastKey_eq_none.1 htail.symm
      rw [mmalloc_grow_notail hn hgf ht]
      refine ⟨rfl, rfl, ?_, rfl, rfl, ?_⟩
      · show findHeader (s.mem ++ [(s.brk, ⟨n, false, none⟩)]) s.brk = some ⟨n, false, none⟩
        rw [hmem, List.nil_append]
        simp [findHeader]
      · intro t ht2 hcon hfind2
        exact absurd hcon (by simp)
  | some t =>
      have hlkt : lastKey s.mem = some t := by rw [← htail, ht]
      obtain ⟨ht2, hmt⟩ := lastKey_mem hlkt
      have hfind : findHeader s.mem t = some ht2 := segOk_findHeader hseg hmt
      rw [mmalloc_grow_tail hn hgf ht]
      refine ⟨rfl, rfl, ?_, rfl, rfl, ?_⟩
      · show findHeader (setNext (s.mem ++ [(s.brk, ⟨n, false, none⟩)]) t (some s.brk)) s.brk
          = some ⟨n, false, none⟩
        rw [setNext_append_of_found _ hfind]
        rw [findHeader_append_right]
        · simp [findHeader]
        · intro e he
          obtain ⟨e1, e2⟩ := e
          obtain ⟨h0, hm0⟩ := setNext_mem_key he
          have := (segOk_bounds hseg _ hm0).2
          have := headerSize_pos
          dsimp only
          omega
      · intro t' ht' htl hfind'
        have htt : t' = t := (Option.some_inj.1 htl).symm
        subst htt
        have hteq : ht' = ht2 := by
          have h3 := hfind.symm.trans hfind'
          exact (Option.some_inj.1 h3).symm
        subst hteq
        show findHeader (setNext (s.mem ++ [(s.brk, ⟨n, false, none⟩)]) t' (some s.brk)) t'
          = some { ht' with next := some s.brk }
        rw [setNext_append_of_found _ hfind']
        have : findHeader (setNext s.mem t' (some s.brk)) t' = some { ht' with next := some s.brk } := by
          rw [findHeader_setNext_self, hfind']
          rfl
        exact findHeader_append_left _ this

/-! The claims. -/

/-- C8: zero-sized requests always fail as no-ops that change no allocator
state: mmalloc(0) and rrealloc(p, 0) return the null pointer with the state
unchanged (rrealloc(p, 0) does not behave as a release), and ccalloc fails
the same way when either the count or the element size is zero. -/
theorem claim_C8_zero_size (s : AllocState) (g : Bool) (p : Option Nat) (num nsize : Nat) :
    mmalloc s g 0 = (none, s)
    ∧ rrealloc s g p 0 = (none, s)
    ∧ ccalloc s g 0 nsize = (none, s)
    ∧ ccalloc s g num 0 = (none, s) := by
  refine ⟨mmalloc_zero, ?_, ?_, ?_⟩
  · cases p with
    | none =>
        show mmalloc s g 0 = (none, s)
        exact mmalloc_zero
    | some q =>
        show mmalloc s g 0 = (none, s)
        exact mmalloc_zero
  · simp [ccalloc]
  · simp [ccalloc]

/-- C7: with nonzero arguments, the division round-trip test in ccalloc
succeeds exactly when the product does not overflow the 64-bit size type,
and on overflow ccalloc fails returning the null pointer with the allocator
state unchanged (no allocation happens). -/
theorem claim_C7_overflow (s : AllocState) (g : Bool) (num nsize : Nat)
    (hnum : num ≠ 0) (hnsize : nsize ≠ 0) :
    (num * nsize % W / num = nsize ↔ num * nsize < W)
    ∧ (W ≤ num * nsize → ccalloc s g num nsize = (none, s)) := by
  have hW : 0 < W := by decide
  have hkey : W ≤ num * nsize → num * nsize % W / num < nsize := by
    intro hge
    have hlt : num * nsize % W < W := Nat.mod_lt _ hW
    have hply : num * nsize % W < num * nsize := lt_of_lt_of_le hlt hge
    rw [Nat.div_lt_iff_lt_mul (Nat.pos_of_ne_zero hnum)]
    calc num * nsize % W < num * nsize := hply
      _ = nsize * num := Nat.mul_comm _ _
  constructor
  · constructor
    · intro hdiv
      by_contra hge
      push_neg at hge
      have := hkey hge
      omega
    · intro hlt
      rw [Nat.mod_eq_of_lt hlt, Nat.mul_div_cancel_left _ (Nat.pos_of_ne_zero hnum)]
  · intro hge
    have hne : nsize ≠ num * nsize % W / num := by
      have := hkey hge
      omega
    have h0 : ¬(num = 0 ∨ nsize = 0) := by simp [hnum, hnsize]
    simp only [ccalloc, if_neg h0, if_pos hne]

/-- Witness for C7 at num = 2^63, nsize = 4: the product overflows and the
zeroed allocation fails without touching the pristine state. -/
theorem claim_C7_overflow_witness :
    ((2 ^ 63 : Nat) ≠ 0 ∧ (4 : Nat) ≠ 0 ∧ W ≤ 2 ^ 63 * 4)
    ∧ ccalloc initState true (2 ^ 63) 4 = (none, initState) :=
  ⟨⟨by decide, by decide, by decide⟩,
   (claim_C7_overflow initState true (2 ^ 63) 4 (by decide) (by decide)).2 (by decide)⟩

/-- C6: if the inner mmalloc on the grow path of rrealloc fails, the old
block — indeed the whole allocator state — is left intact (in particular
the old block is not released) and the null result is surfaced. -/
theorem claim_C6_realloc_oom (s : AllocState) (g : Bool) (p n : Nat) (h : Header)
    (hf : findHeader s.mem (p - headerSize) = some h)
    (hgrow : h.size < n)
    (hfail : (mmalloc s g n).1 = none) :
    rrealloc s g (some p) n = (none, s) := by
  have hn : n ≠ 0 := by omega
  have hsz : ¬h.size ≥ n := by omega
  have hmm := mmalloc_fail_state hfail
  simp only [rrealloc, if_neg hn, hf, if_neg hsz, hmm]

/-- Witness for C6: with one live 4-byte block and a host that refuses to
grow, resizing that block to 10 bytes fails and leaves the state intact. -/
theorem claim_C6_realloc_oom_witness :
    (findHeader (mmalloc initState true 4).2.mem (24 - headerSize)
        = some ⟨4, false, none⟩
      ∧ (Header.size ⟨4, false, none⟩ < 10)
      ∧ (mmalloc (mmalloc initState true 4).2 false 10).1 = none)
    ∧ rrealloc (mmalloc initState true 4).2 false (some 24) 10
        = (none, (mmalloc initState true 4).2) :=
  ⟨⟨by decide, by decide, by decide⟩,
   claim_C6_realloc_oom (mmalloc initState true 4).2 false 24 10 ⟨4, false, none⟩
     (by decide) (by decide) (by decide)⟩

/-- Counterexample to C3 as frozen: the grow request is computed as
total_size = sizeof(struct header_t) + size in size_t, so at
size = 2 ^ 64 - 1 the program asks sbrk for (header_size + size)
mod 2 ^ 64 = 23 bytes and the break advances by 23, not by
header_size + size. -/
theorem claim_C3_growth_counterexample :
    0 < W - 1
    ∧ get_free_block initState (W - 1) = none
    ∧ (mmalloc initState true (W - 1)).2.brk = initState.brk + 23
    ∧ initState.brk + 23 ≠ initState.brk + (headerSize + (W - 1)) :=
  ⟨by decide, by decide, by decide, by decide⟩

/-- C3 (amended): when no free block qualifies, mmalloc requests arena
growth of total_size = (header_size + size) mod 2 ^ 64 — which equals
header_size + size exactly when header_size + size < 2 ^ 64, the break
then advancing by exactly header_size + size; if the host refuses, it
fails with a null pointer leaving the state, and so the block list,
unchanged; if the host grants it, a header with the requested size, the
live flag and an empty successor sits at the old break, head is set to it
exactly when it was empty, the old tail (when present) now links to it,
tail always becomes it, and the address just after the new header is
returned. -/
theorem claim_C3_growth (s : AllocState) (n : Nat) (HI : Inv s = true) (hn : 0 < n)
    (hgf : get_free_block s n = none) :
    mmalloc s false n = (none, s)
    ∧ (mmalloc s true n).1 = some (s.brk + headerSize)
    ∧ (mmalloc s true n).2.brk = s.brk + (headerSize + n) % W
    ∧ (headerSize + n < W → (mmalloc s true n).2.brk = s.brk + (headerSize + n))
    ∧ findHeader (mmalloc s true n).2.mem s.brk = some ⟨n, false, none⟩
    ∧ (mmalloc s true n).2.head = (if s.head = none then some s.brk else s.head)
    ∧ (mmalloc s true n).2.tail = some s.brk
    ∧ (∀ t ht, s.tail = some t → findHeader s.mem t = some ht →
        findHeader (mmalloc s true n).2.mem t = some { ht with next := some s.brk }) := by
  have hn2 : n ≠ 0 := by omega
  obtain ⟨h1, h2, h3, h4, h5, h6⟩ := mmalloc_grow_desc HI hn2 hgf
  refine ⟨mmalloc_nogrow hn2 hgf, h1, h2, ?_, h3, h4, h5, h6⟩
  intro hw
  rw [h2, Nat.mod_eq_of_lt hw]

/-- Witness for C3 on a state with one live block: growing by 5 more bytes
appends a new block at the old break, advances the break by exactly
headerSize + 5, and returns the address after its header. -/
theorem claim_C3_growth_witness :
    (Inv (mmalloc initState true 4).2 = true
      ∧ 0 < 5
      ∧ get_free_block (mmalloc initState true 4).2 5 = none
      ∧ headerSize + 5 < W)
    ∧ (mmalloc (mmalloc initState true 4).2 true 5).1
        = some ((mmalloc initState true 4).2.brk + headerSize)
    ∧ (mmalloc (mmalloc initState true 4).2 true 5).2.brk
        = (mmalloc initState true 4).2.brk + (headerSize + 5)
    ∧ (mmalloc (mmalloc initState true 4).2 true 5).2.tail
        = some (mmalloc initState true 4).2.brk := by
  refine ⟨⟨by decide, by decide, by decide, by decide⟩, ?_, ?_, ?_⟩
  · exact (claim_C3_growth (mmalloc initState true 4).2 5 (by decide) (by decide)
      (by decide)).2.1
  · exact (claim_C3_growth (mmalloc initState true 4).2 5 (by decide) (by decide)
      (by decide)).2.2.2.1 (by decide)
  · exact (claim_C3_growth (mmalloc initState true 4).2 5 (by decide) (by decide)
      (by decide)).2.2.2.2.2.2.1

/-- C4: ffree on a non-null pointer compares pointer + size with the
program break; on equality it removes exactly that (trailing) header —
clearing both head and tail when head = tail, otherwise nulling the
predecessor's next and making the predecessor the new tail — and retracts
the arena by headerSize + size, reclaiming exactly one block; otherwise it
only sets the block's free flag and changes nothing else. -/
theorem claim_C4_release (s : AllocState) (p : Nat) (h : Header) (HI : Inv s = true)
    (hf : findHeader s.mem (p - headerSize) = some h) :
    (p + h.size = s.brk →
       (ffree s (some p)).brk = s.brk - (headerSize + h.size)
       ∧ findHeader (ffree s (some p)).mem (p - headerSize) = none
       ∧ (ffree s (some p)).mem.length + 1 = s.mem.length
       ∧ (s.head = s.tail →
            (ffree s (some p)).head = none ∧ (ffree s (some p)).tail = none)
       ∧ (¬s.head = s.tail → (ffree s (some p)).head = s.head
           ∧ ∃ ck hck, findHeader s.mem ck = some hck ∧ hck.next = some (p - headerSize)
               ∧ (ffree s (some p)).tail = some ck
               ∧ findHeader (ffree s (some p)).mem ck = some { hck with next := none }))
    ∧ (p + h.size ≠ s.brk →
        ffree s (some p) = { s with mem := setIsFree s.mem (p - headerSize) true }) := by
  constructor
  · intro hlast
    obtain ⟨pre, hdec, hp, hbrk, hby, hInv, hlen, hfh, hdisj⟩ := ffree_last_desc HI hf hlast
    refine ⟨hbrk, hfh, hlen, ?_, ?_⟩
    · intro hht
      rcases hdisj with ⟨-, -, hh, htl⟩ | ⟨-, hne2, -⟩
      · exact ⟨hh, htl⟩
      · exact absurd hht hne2
    · intro hht
      rcases hdisj with ⟨-, heq, -⟩ | ⟨-, hne2, hh, ck, hck, -, hfk, hnx, htl, -, hfk2⟩
      · exact absurd heq hht
      · exact ⟨hh, ck, hck, hfk, hnx, htl, hfk2⟩
  · intro hne
    exact ffree_mark hf hne

/-- Witness for C4: with two live blocks A(4) and B(8), releasing B (whose
region ends at the break) retracts the arena by headerSize + 8. -/
theorem claim_C4_release_witness :
    (Inv (mmalloc (mmalloc initState true 4).2 true 8).2 = true
      ∧ findHeader (mmalloc (mmalloc initState true 4).2 true 8).2.mem (52 - headerSize)
          = some ⟨8, false, none⟩
      ∧ 52 + Header.size ⟨8, false, none⟩
          = (mmalloc (mmalloc initState true 4).2 true 8).2.brk)
    ∧ (ffree (mmalloc (mmalloc initState true 4).2 true 8).2 (some 52)).brk
        = (mmalloc (mmalloc initState true 4).2 true 8).2.brk
            - (headerSize + Header.size ⟨8, false, none⟩) :=
  ⟨⟨by decide, by decide, by decide⟩,
   ((claim_C4_release (mmalloc (mmalloc initState true 4).2 true 8).2 52 ⟨8, false, none⟩
      (by decide) (by decide)).1 (by decide)).1⟩

/-- C10: in every reachable state, a nonempty list has a tail, and a
block's usable region ends exactly at the program break iff that block is
the current tail; hence the physically-last test in ffree can match only
the tail. -/
theorem claim_C10_tail_last (s : AllocState) (hr : Reachable s) :
    (s.mem ≠ [] → s.tail ≠ none)
    ∧ ∀ a h, findHeader s.mem a = some h →
        ((a + headerSize) + h.size = s.brk ↔ s.tail = some a) := by
  obtain ⟨hseg, htail⟩ := Inv_def.1 (Reachable_Inv hr)
  constructor
  · intro hne hcon
    rw [htail] at hcon
    exact hne (lastKey_eq_none.1 hcon)
  · intro a h hf
    have hm := findHeader_mem hf
    have hiff := segOk_last_iff hseg hm
    rw [htail]
    rw [show (a + headerSize) + h.size = a + headerSize + h.size from rfl]
    exact hiff

/-- Witness for C10: after one allocation the single block at address 0 is
the tail, as its region ends at the break. -/
theorem claim_C10_tail_last_witness :
    ((mmalloc initState true 4).2.mem ≠ []
      ∧ findHeader (mmalloc initState true 4).2.mem 0 = some ⟨4, false, none⟩)
    ∧ (mmalloc initState true 4).2.tail = some 0 := by
  refine ⟨⟨by decide, by decide⟩, ?_⟩
  exact ((claim_C10_tail_last (mmalloc initState true 4).2
      (Reachable.step_malloc initState true 4 (by decide) Reachable.init)).2
      0 ⟨4, false, none⟩ (by decide)).1 (by decide)

/-- C9: every reachable state satisfies the structural block-list
invariant: the chain followed from head is finite, visits pairwise
distinct headers, ends with tail (whose next is empty), and head is empty
exactly when tail is. -/
theorem claim_C9_list_invariant (s : AllocState) (hr : Reachable s) :
    ∃ as : List Nat,
      isChain s.mem s.head as = true
      ∧ as.Nodup
      ∧ s.tail = as.getLast?
      ∧ (s.head = none ↔ s.tail = none)
      ∧ ∀ t, s.tail = some t →
          ∃ ht, findHeader s.mem t = some ht ∧ ht.next = none := by
  obtain ⟨hseg, htail⟩ := Inv_def.1 (Reachable_Inv hr)
  refine ⟨s.mem.map Prod.fst, ?_, keys_nodup hseg, ?_, ?_, ?_⟩
  · exact isChain_of_suffix hseg fun a h hm => segOk_findHeader hseg hm
  · rw [htail, lastKey_eq_getLast]
  · constructor
    · intro hh
      cases hm : s.mem with
      | nil => rw [htail, hm]; rfl
      | cons e rest =>
          exfalso
          obtain ⟨e1, e2⟩ := e
          rw [hm, segOk_cons] at hseg
          rw [hseg.1] at hh
          simp at hh
    · intro htl
      rw [htail] at htl
      have hm := lastKey_eq_none.1 htl
      rw [hm, segOk_nil] at hseg
      exact hseg.1
  · intro t htl
    rw [htail] at htl
    obtain ⟨pre, hX, hdec⟩ := lastKey_decomp htl
    have hnext := (segOk_append_last_next (by rw [← hdec]; exact hseg)).1
    refine ⟨hX, ?_, hnext⟩
    exact segOk_findHeader hseg (by rw [hdec]; simp)

/-- Witness for C9 at the state reached by one allocation. -/
theorem claim_C9_list_invariant_witness :
    ∃ as : List Nat,
      isChain (mmalloc initState true 4).2.mem (mmalloc initState true 4).2.head as = true
      ∧ as.Nodup
      ∧ (mmalloc initState true 4).2.tail = as.getLast?
      ∧ ((mmalloc initState true 4).2.head = none
          ↔ (mmalloc initState true 4).2.tail = none)
      ∧ ∀ t, (mmalloc initState true 4).2.tail = some t →
          ∃ ht, findHeader (mmalloc initState true 4).2.mem t = some ht ∧ ht.next = none :=
  claim_C9_list_invariant _
    (Reachable.step_malloc initState true 4 (by decide) Reachable.init)

/-- C2: mmalloc performs a first-fit search: get_free_block returns the
first header in list order that is free and at least the requested size;
on a hit mmalloc only clears that header's free flag and returns the
address immediately after the header, with no splitting and no other state
change; concretely, after allocating A(4), B(8), C(1) and releasing A, a
subsequent allocate(2) returns A's former address even with the host
refusing any growth. -/
theorem claim_C2_first_fit :
    (∀ (s : AllocState) (g : Bool) (n a : Nat), Inv s = true → n ≠ 0 →
      (get_free_block s n = (s.mem.find? fun e => qualifies n e.2).map Prod.fst)
      ∧ (get_free_block s n = some a →
          mmalloc s g n = (some (a + headerSize),
            { s with mem := setIsFree s.mem a false })))
    ∧ (mmalloc initState true 4).1 = some 24
    ∧ (mmalloc (ffree (mmalloc (mmalloc (mmalloc initState true 4).2 true 8).2 true 1).2
          (some 24)) false 2).1 = some 24 := by
  refine ⟨?_, by decide, by decide⟩
  intro s g n a HI hn
  obtain ⟨hseg, -⟩ := Inv_def.1 HI
  constructor
  · exact gfbGo_spec s.mem n s.mem 0 s.brk (s.mem.length + 1) s.head hseg
      (fun a2 h2 hm => segOk_findHeader hseg hm) (by omega)
  · intro hgf
    exact mmalloc_hit hn hgf

/-- Witness for C2: in the A(4), B(8), C(1), release-A state the first-fit
scan for 2 bytes finds A's old header at address 0. -/
theorem claim_C2_first_fit_witness :
    (Inv (ffree (mmalloc (mmalloc (mmalloc initState true 4).2 true 8).2 true 1).2
        (some 24)) = true ∧ (2 : Nat) ≠ 0)
    ∧ get_free_block (ffree (mmalloc (mmalloc (mmalloc initState true 4).2 true 8).2
        true 1).2 (some 24)) 2 = some 0 := by
  refine ⟨⟨by decide, by decide⟩, ?_⟩
  have h := (claim_C2_first_fit.1 (ffree (mmalloc (mmalloc (mmalloc initState true 4).2
      true 8).2 true 1).2 (some 24)) false 2 0 (by decide) (by decide)).1
  rw [h]
  decide

/-- Counterexample to C1 as frozen: at size = 2 ^ 64 - 1 the grow request
total_size = sizeof(struct header_t) + size wraps in size_t to 23, so the
program reserves only 23 bytes yet records size 2 ^ 64 - 1 in the header.
Starting from the pristine arena, allocate(2 ^ 64 - 1) returns pointer 24
while the break reaches only 23; a following allocate(5) returns
pointer 47 with its whole region [47, 52) inside the first block's
claimed usable region [24, 24 + (2 ^ 64 - 1)), both blocks live — the
first allocation has nowhere near size usable bytes and the two live
regions overlap. -/
theorem claim_C1_no_overlap_counterexample :
    0 < W - 1
    ∧ (mmalloc initState true (W - 1)).1 = some 24
    ∧ (mmalloc initState true (W - 1)).2.brk = 23
    ∧ (mmalloc (mmalloc initState true (W - 1)).2 true 5).1 = some 47
    ∧ findHeader (mmalloc (mmalloc initState true (W - 1)).2 true 5).2.mem 0
        = some ⟨W - 1, false, some 23⟩
    ∧ findHeader (mmalloc (mmalloc initState true (W - 1)).2 true 5).2.mem 23
        = some ⟨5, false, none⟩
    ∧ (mmalloc (mmalloc initState true (W - 1)).2 true 5).2.brk = 52
    ∧ 24 ≤ 47 ∧ 47 + 5 ≤ 24 + (W - 1) :=
  ⟨by decide, by decide, by decide, by decide, by decide, by decide, by decide,
   by decide, by decide⟩

/-- C1 (amended): for requests whose total_size does not wrap —
header_size + size < 2 ^ 64 — a successful mmalloc in any reachable state
(reachability itself covering every history of such non-wrapping
requests, arbitrary host answers and arbitrary pointers) returns the
address just after a header that is live and of at least the requested
size, and that block's whole usable region is disjoint from the usable
region of every other live block in the resulting state.  At wrapping
sizes the program reserves only (header_size + size) mod 2 ^ 64 bytes and
live regions overlap, as the counterexample computes. -/
theorem claim_C1_no_overlap (s s' : AllocState) (g : Bool) (n p : Nat)
    (hr : Reachable s) (hn : 0 < n) (hw : headerSize + n < W)
    (hm : mmalloc s g n = (some p, s')) :
    ∃ a h, p = a + headerSize
      ∧ findHeader s'.mem a = some h
      ∧ h.is_free = false
      ∧ n ≤ h.size
      ∧ ∀ b hb, findHeader s'.mem b = some hb → b ≠ a → hb.is_free = false →
          b + headerSize + hb.size ≤ p ∨ p + h.size ≤ b + headerSize := by
  have HI := Reachable_Inv hr
  have HI' : Inv s' = true := by
    have h2 := Inv_mmalloc g n hw HI
    rw [hm] at h2
    exact h2
  have hn2 : n ≠ 0 := by omega
  have hblock : ∃ a h, p = a + headerSize ∧ findHeader s'.mem a = some h
      ∧ h.is_free = false ∧ n ≤ h.size := by
    cases hgf : get_free_block s n with
    | some a =>
        rw [mmalloc_hit hn2 hgf] at hm
        obtain ⟨h0, hf0, hfree0, hsz0⟩ := get_free_block_sound hgf
        rw [Prod.mk.injEq] at hm
        obtain ⟨hp, hs'⟩ := hm
        refine ⟨a, { h0 with is_free := false }, (Option.some_inj.1 hp).symm, ?_, rfl, hsz0⟩
        rw [← hs']
        show findHeader (setIsFree s.mem a false) a = _
        rw [findHeader_setIsFree_self, hf0]
        rfl
    | none =>
        cases g with
        | false =>
            rw [mmalloc_nogrow hn2 hgf] at hm
            rw [Prod.mk.injEq] at hm
            simp at hm
        | true =>
            obtain ⟨h1, -, h3, -, -, -⟩ := mmalloc_grow_desc HI hn2 hgf
            rw [hm] at h1 h3
            refine ⟨s.brk, ⟨n, false, none⟩, ?_, h3, rfl, Nat.le_refl n⟩
            simpa using h1
  obtain ⟨a, h, hpa, hfa, hfree, hsz⟩ := hblock
  refine ⟨a, h, hpa, hfa, hfree, hsz, ?_⟩
  intro b hb hfb hba hbl
  obtain ⟨hseg', -⟩ := Inv_def.1 HI'
  have hhs := headerSize_pos
  have hd := segOk_disjoint hseg' (findHeader_mem hfb) (findHeader_mem hfa) hba
  rcases hd with hle | hle
  · left; omega
  · right; omega

/-- Witness for C1 at the very first allocation. -/
theorem claim_C1_no_overlap_witness :
    ∃ a h, (24 : Nat) = a + headerSize
      ∧ findHeader (mmalloc initState true 4).2.mem a = some h
      ∧ h.is_free = false
      ∧ 4 ≤ h.size
      ∧ ∀ b hb, findHeader (mmalloc initState true 4).2.mem b = some hb → b ≠ a →
          hb.is_free = false →
          b + headerSize + hb.size ≤ 24 ∨ 24 + h.size ≤ b + headerSize :=
  claim_C1_no_overlap initState (mmalloc initState true 4).2 true 4 24
    Reachable.init (by decide) (by decide) rfl

/-- Counterexample to C5 as frozen: with one live 4-byte block at user
address 24, new_size = 0 satisfies header.size ≥ new_size, yet
rrealloc(24, 0) defers to mmalloc(0) and returns null rather than the
original pointer unchanged. -/
theorem claim_C5_resize_counterexample :
    findHeader (mmalloc initState true 4).2.mem (24 - headerSize) = some ⟨4, false, none⟩
    ∧ Header.size ⟨4, false, none⟩ ≥ 0
    ∧ (rrealloc (mmalloc initState true 4).2 true (some 24) 0).1 ≠ some 24
    ∧ (rrealloc (mmalloc initState true 4).2 true (some 24) 0).1 = none :=
  ⟨by decide, by decide, by decide, by decide⟩

/-- C5 (amended): rrealloc with a null pointer behaves exactly as mmalloc
of the new size; with a non-null pointer and a POSITIVE new size it
returns the original pointer with no state change when the block is
already large enough, and otherwise allocates a new block, copies the old
usable bytes into it, releases the old block, and returns the new pointer,
which differs from the old address. (With new_size = 0 the code instead
behaves as mmalloc(0) and fails, so the frozen claim needed the
positivity restriction on the in-place case.) -/
theorem claim_C5_resize (s : AllocState) (g : Bool) (p a n : Nat) :
    (∀ m, rrealloc s g none m = mmalloc s g m)
    ∧ (∀ h, findHeader s.mem (p - headerSize) = some h → 0 < n → n ≤ h.size →
        rrealloc s g (some p) n = (some p, s))
    ∧ (Inv s = true → ∀ h, findHeader s.mem a = some h → p = a + headerSize →
        h.size < n →
        ∀ q s1, mmalloc s g n = (some q, s1) →
          (rrealloc s g (some p) n).1 = some q
          ∧ q ≠ p
          ∧ (rrealloc s g (some p) n).2
              = ffree { s1 with bytes := memcpyBytes s1.bytes q p h.size } (some p)
          ∧ ∀ i, i < h.size →
              (rrealloc s g (some p) n).2.bytes (q + i) = s.bytes (p + i)) := by
  refine ⟨fun m => rfl, ?_, ?_⟩
  · intro h hf hn hsz
    have hn2 : n ≠ 0 := by omega
    simp only [rrealloc, if_neg hn2, hf, if_pos hsz]
  · intro HI h hfa hpa hlt q s1 hmm
    have hn2 : n ≠ 0 := by omega
    have hfp : findHeader s.mem (p - headerSize) = some h := by
      rw [hpa]
      simpa using hfa
    have hsz : ¬h.size ≥ n := by omega
    have hrr : rrealloc s g (some p) n
        = (some q, ffree { s1 with bytes := memcpyBytes s1.bytes q p h.size } (some p)) := by
      simp only [rrealloc, if_neg hn2, hfp, if_neg hsz, hmm]
    have hqp : q ≠ p := by
      obtain ⟨hseg, -⟩ := Inv_def.1 HI
      have hhs := headerSize_pos
      cases hgf : get_free_block s n with
      | some a2 =>
          rw [mmalloc_hit hn2 hgf] at hmm
          rw [Prod.mk.injEq] at hmm
          have hq : a2 + headerSize = q := Option.some_inj.1 hmm.1
          obtain ⟨h0, hf0, hfree0, hsz0⟩ := get_free_block_sound hgf
          have ha2 : a2 ≠ a := by
            intro heq
            rw [heq, hfa] at hf0
            have hh0 : h = h0 := Option.some_inj.1 hf0
            rw [← hh0] at hsz0
            omega
          omega
      | none =>
          cases g with
          | false =>
              rw [mmalloc_nogrow hn2 hgf] at hmm
              rw [Prod.mk.injEq] at hmm
              simp at hmm
          | true =>
              obtain ⟨h1, -, -, -, -, -⟩ := mmalloc_grow_desc HI hn2 hgf
              rw [hmm] at h1
              have hq : q = s.brk + headerSize := by simpa using h1
              have hb := (segOk_bounds hseg _ (findHeader_mem hfa)).2
              omega
    refine ⟨by rw [hrr], hqp, by rw [hrr], ?_⟩
    intro i hi
    rw [hrr]
    show (ffree { s1 with bytes := memcpyBytes s1.bytes q p h.size } (some p)).bytes (q + i)
      = s.bytes (p + i)
    rw [ffree_bytes]
    show memcpyBytes s1.bytes q p h.size (q + i) = s.bytes (p + i)
    have hs1b : s1.bytes = s.bytes := by
      have h2 := mmalloc_bytes (s := s) (g := g) (n := n)
      rw [hmm] at h2
      exact h2
    have hstep : memcpyBytes s1.bytes q p h.size (q + i)
        = if q ≤ q + i ∧ q + i < q + h.size then s1.bytes (p + (q + i - q))
          else s1.bytes (q + i) := rfl
    rw [hstep, if_pos ⟨Nat.le_add_right _ _, by omega⟩,
        show q + i - q = i from by omega, hs1b]

/-- Witness for C5: with blocks A(4) and B(8) live, resizing A (user
address 24) to 30 bytes allocates at the break and returns the new,
different pointer 84. -/
theorem claim_C5_resize_witness :
    (Inv (mmalloc (mmalloc initState true 4).2 true 8).2 = true
      ∧ findHeader (mmalloc (mmalloc initState true 4).2 true 8).2.mem 0
          = some ⟨4, false, some 28⟩
      ∧ (24 : Nat) = 0 + headerSize
      ∧ Header.size ⟨4, false, some 28⟩ < 30)
    ∧ (rrealloc (mmalloc (mmalloc initState true 4).2 true 8).2 true (some 24) 30).1
        = some 84
    ∧ (84 : Nat) ≠ 24 := by
  refine ⟨⟨by decide, by decide, by decide, by decide⟩, ?_, by decide⟩
  exact ((claim_C5_resize (mmalloc (mmalloc initState true 4).2 true 8).2 true 24 0 30).2.2
    (by decide) ⟨4, false, some 28⟩ (by decide) (by decide) (by decide) 84
    (mmalloc (mmalloc (mmalloc initState true 4).2 true 8).2 true 30).2 rfl).1

end Allocator
